import Mathlib

/-!
Verification of the xmit CLI transfer engine against its specification.

The Go source is shallowly embedded: byte slices become `List Nat`, Go maps
become association lists with Go's zero-value semantics on missing keys,
pure functions become Lean functions, and the concurrent upload engine is
modelled as a labelled transition system.
-/

namespace Xmit

/-- A Go byte slice (`[]byte`); each element is one byte. -/
abbrev Bytes := List Nat

/-! ## chunkSlice (src/util.go, lines 9-33)

The Go loop keeps a current chunk and its running byte size.  If adding the
next item would exceed `maxSize` and the current chunk has positive size,
the current chunk is flushed; the item is then always appended. -/

/-- The loop of `chunkSlice`: `cur` is `currentChunk`, `curSize` is
`currentSize` (in the Go code `currentSize` always equals the byte sum of
`currentChunk`; here it is threaded explicitly exactly as in the source). -/
def chunkGo (maxSize : Nat) : List Bytes → List Bytes → Nat → List (List Bytes)
  | [], cur, _ => if cur = [] then [] else [cur]
  | item :: rest, cur, curSize =>
    if curSize + item.length > maxSize ∧ 0 < curSize then
      cur :: chunkGo maxSize rest [item] item.length
    else
      chunkGo maxSize rest (cur ++ [item]) (curSize + item.length)

/-- `chunkSlice(data, maxSize)` from src/util.go. -/
def chunkSlice (data : List Bytes) (maxSize : Nat) : List (List Bytes) :=
  chunkGo maxSize data [] 0

/-- Total byte size of a chunk (`currentSize` of a completed chunk). -/
def chunkBytes (c : List Bytes) : Nat := (c.map List.length).sum

/-- Number of non-empty parts in a chunk. -/
def chunkPos (c : List Bytes) : Nat := c.countP (fun b => 0 < b.length)

theorem chunkBytes_nil : chunkBytes [] = 0 := rfl

theorem chunkGo_nil_of_ne (maxSize curSize : Nat) (cur : List Bytes)
    (h : cur ≠ []) : chunkGo maxSize [] cur curSize = [cur] := by
  rw [chunkGo, if_neg h]

theorem chunkGo_cons_flush (maxSize curSize : Nat) (item : Bytes)
    (rest cur : List Bytes)
    (h : curSize + item.length > maxSize ∧ 0 < curSize) :
    chunkGo maxSize (item :: rest) cur curSize =
      cur :: chunkGo maxSize rest [item] item.length := by
  rw [chunkGo, if_pos h]

theorem chunkGo_cons_keep (maxSize curSize : Nat) (item : Bytes)
    (rest cur : List Bytes)
    (h : ¬ (curSize + item.length > maxSize ∧ 0 < curSize)) :
    chunkGo maxSize (item :: rest) cur curSize =
      chunkGo maxSize rest (cur ++ [item]) (curSize + item.length) := by
  rw [chunkGo, if_neg h]

theorem chunkBytes_append (a b : List Bytes) :
    chunkBytes (a ++ b) = chunkBytes a + chunkBytes b := by
  simp [chunkBytes]

theorem chunkPos_eq_zero_of_chunkBytes_eq_zero (c : List Bytes)
    (h : chunkBytes c = 0) : chunkPos c = 0 := by
  induction c with
  | nil => rfl
  | cons x xs ih =>
    simp only [chunkBytes, List.map_cons, List.sum_cons, Nat.add_eq_zero] at h
    have hx : ¬ 0 < x.length := by omega
    simp only [chunkPos, List.countP_cons, decide_eq_true_eq, hx, if_false]
    exact ih h.2

theorem chunkGo_join (maxSize : Nat) (data : List Bytes) :
    ∀ cur curSize, (chunkGo maxSize data cur curSize).flatten = cur ++ data := by
  induction data with
  | nil =>
    intro cur curSize
    by_cases h : cur = [] <;> simp [chunkGo, h]
  | cons item rest ih =>
    intro cur curSize
    by_cases h : curSize + item.length > maxSize ∧ 0 < curSize
    · simp [chunkGo, if_pos h, ih]
    · simp [chunkGo, if_neg h, ih]

theorem chunkGo_ne_nil (maxSize : Nat) (data : List Bytes) :
    ∀ cur curSize, curSize = chunkBytes cur →
      ∀ c ∈ chunkGo maxSize data cur curSize, c ≠ [] := by
  induction data with
  | nil =>
    intro cur curSize _ c hc
    by_cases h : cur = []
    · simp [chunkGo, h] at hc
    · simp only [chunkGo, if_neg h, List.mem_singleton] at hc
      exact hc ▸ h
  | cons item rest ih =>
    intro cur curSize hsz c hc
    by_cases h : curSize + item.length > maxSize ∧ 0 < curSize
    · simp only [chunkGo, if_pos h, List.mem_cons] at hc
      rcases hc with hc | hc
      · subst hc
        intro hnil
        rw [hnil] at hsz
        simp [chunkBytes] at hsz
        omega
      · exact ih [item] item.length (by simp [chunkBytes]) c hc
    · simp only [chunkGo, if_neg h] at hc
      exact ih (cur ++ [item]) (curSize + item.length)
        (by rw [chunkBytes_append, hsz]; simp [chunkBytes]) c hc

theorem chunkPos_append_single (cur : List Bytes) (item : Bytes)
    (hcur : chunkPos cur = 0) (hitem : 0 < item.length) :
    chunkPos (cur ++ [item]) = 1 := by
  simp only [chunkPos, List.countP_append] at *
  simp [List.countP_cons, hitem, hcur]

theorem chunkGo_big_single (maxSize : Nat) (data : List Bytes) :
    ∀ cur curSize, curSize = chunkBytes cur →
      (maxSize < curSize → chunkPos cur = 1) →
      ∀ c ∈ chunkGo maxSize data cur curSize,
        maxSize < chunkBytes c → chunkPos c = 1 := by
  induction data with
  | nil =>
    intro cur curSize hsz hbig c hc hover
    by_cases h : cur = []
    · simp [chunkGo, h] at hc
    · simp only [chunkGo, if_neg h, List.mem_singleton] at hc
      subst hc
      exact hbig (hsz ▸ hover)
  | cons item rest ih =>
    intro cur curSize hsz hbig c hc hover
    by_cases h : curSize + item.length > maxSize ∧ 0 < curSize
    · simp only [chunkGo, if_pos h, List.mem_cons] at hc
      rcases hc with hc | hc
      · subst hc
        exact hbig (hsz ▸ hover)
      · refine ih [item] item.length (by simp [chunkBytes]) ?_ c hc hover
        intro hbig1
        simp only [chunkBytes, List.map_cons, List.map_nil, List.sum_cons,
          List.sum_nil, Nat.add_zero] at hbig1
        simp [chunkPos, List.countP_cons, Nat.lt_of_le_of_lt (Nat.zero_le _) hbig1]
    · simp only [chunkGo, if_neg h] at hc
      refine ih (cur ++ [item]) (curSize + item.length)
        (by rw [chunkBytes_append, hsz]; simp [chunkBytes]) ?_ c hc hover
      intro hbig2
      -- no flush happened, so the current chunk carried zero bytes:
      -- the new item alone exceeds the bound
      have hz : curSize = 0 := by
        rcases not_and_or.mp h with h1 | h2 <;> omega
      have hcur0 : chunkPos cur = 0 :=
        chunkPos_eq_zero_of_chunkBytes_eq_zero cur (by omega)
      exact chunkPos_append_single cur item hcur0 (by omega)

/-! ## Sorting of missing parts (src/upload.go, lines 88-98)

`slices.SortFunc(toUpload, func(i, j []byte) int { return cmp.Compare(len(j), len(i)) })`
sorts by descending byte size; the embedding uses a sort with the same
comparator (`slices.SortFunc` is an unstable comparison sort, so its
observable contract is: the result is a permutation of the input that is
sorted under the comparator). -/

/-- The comparator of src/upload.go line 90: `a` may precede `b` exactly
when `a` is at least as long as `b`. -/
def byLenDesc (a b : Bytes) : Prop := b.length ≤ a.length

instance : DecidableRel byLenDesc := fun a b => Nat.decLe b.length a.length

instance : IsTotal Bytes byLenDesc := ⟨fun a b => Nat.le_total b.length a.length⟩

instance : IsTrans Bytes byLenDesc :=
  ⟨fun _ _ _ h1 h2 => Nat.le_trans h2 h1⟩

/-- The sort performed on `toUpload` before chunking. -/
def sortDescBySize (l : List Bytes) : List Bytes := List.insertionSort byLenDesc l

/-- Lines 88-95 of src/upload.go: sort the missing contents by decreasing
size, then chunk with the 10 MiB bound. -/
def uploadChunkPlan (toUpload : List Bytes) : List (List Bytes) :=
  chunkSlice (sortDescBySize toUpload) (10 * 1024 * 1024)

/-! ## Claim theorems for C2 and C3 -/

/-- Claim C2, counterexample: with an empty part followed by a part one
byte over the 10 MiB bound, `chunkSlice` produces a single chunk whose
total size exceeds 10 MiB yet which contains two elements, because the
flush condition `currentSize > 0` does not fire while only empty parts
have been accumulated.  This refutes "every chunk whose total byte size
exceeds 10 MiB contains exactly one element" as stated. -/
theorem c2_chunk_counterexample :
    chunkSlice [[], List.replicate 10485761 0] 10485760 =
      [[[], List.replicate 10485761 0]] ∧
    10485760 < chunkBytes [[], List.replicate 10485761 0] ∧
    ([[], List.replicate 10485761 0] : List Bytes).length ≠ 1 := by
  refine ⟨?_, ?_, ?_⟩
  · rw [chunkSlice,
      chunkGo_cons_keep _ _ _ _ _ (fun h => absurd h.2 (lt_irrefl 0)),
      chunkGo_cons_keep _ _ _ _ _
        (fun h => absurd h.2 (by simp only [List.length_nil]; omega))]
    simp only [List.nil_append, List.cons_append]
    rw [chunkGo_nil_of_ne _ _ _ (List.cons_ne_nil _ _)]
  · have hbig : (List.replicate 10485761 (0 : Nat)).length = 10485761 :=
      List.length_replicate _ _
    simp only [chunkBytes, List.map_cons, List.map_nil, List.sum_cons,
      List.sum_nil, List.length_nil, hbig]
    omega
  · simp only [List.length_cons, List.length_nil]
    omega

/-- Claim C2 (amended): concatenating the chunks of `chunkSlice` in order
yields exactly the input; every chunk is non-empty; every chunk whose
total byte size exceeds the bound contains exactly one non-empty element;
and when every input part is non-empty, every such oversized chunk
contains exactly one element. -/
theorem c2_chunking_sound (data : List Bytes) (maxSize : Nat) :
    (chunkSlice data maxSize).flatten = data ∧
    (∀ c ∈ chunkSlice data maxSize, c ≠ []) ∧
    (∀ c ∈ chunkSlice data maxSize, maxSize < chunkBytes c → chunkPos c = 1) ∧
    ((∀ x ∈ data, x ≠ []) → ∀ c ∈ chunkSlice data maxSize,
      maxSize < chunkBytes c → c.length = 1) := by
  have hflat : (chunkSlice data maxSize).flatten = data := by
    simpa using chunkGo_join maxSize data [] 0
  refine ⟨hflat, ?_, ?_, ?_⟩
  · exact chunkGo_ne_nil maxSize data [] 0 rfl
  · exact chunkGo_big_single maxSize data [] 0 rfl (by intro h; omega)
  · intro hne c hc hover
    have hpos := chunkGo_big_single maxSize data [] 0 rfl (by intro h; omega) c hc hover
    have hsub : ∀ x ∈ c, x ∈ data := by
      intro x hx
      have hmem : x ∈ (chunkSlice data maxSize).flatten :=
        List.mem_flatten.mpr ⟨c, hc, hx⟩
      rwa [hflat] at hmem
    have hall : ∀ x ∈ c, 0 < x.length := by
      intro x hx
      have := hne x (hsub x hx)
      cases x with
      | nil => exact absurd rfl this
      | cons y ys => simp
    have hlen : chunkPos c = c.length :=
      List.countP_eq_length.mpr (fun x hx => by simpa using hall x hx)
    omega

/-- Witness for Claim C2's amended theorem at a concrete input: one part
of 3 bytes against a 2-byte bound forms a single oversized singleton chunk. -/
theorem c2_chunking_sound_witness :
    (chunkSlice [[1, 2, 3]] 2).flatten = [[1, 2, 3]] ∧
    [[1, 2, 3]] ≠ ([] : List Bytes) ∧
    chunkPos [[1, 2, 3]] = 1 ∧
    ([[1, 2, 3]] : List Bytes).length = 1 :=
  have h := c2_chunking_sound [[1, 2, 3]] 2
  ⟨h.1, h.2.1 _ (by decide), h.2.2.1 _ (by decide) (by decide),
    h.2.2.2 (by decide) _ (by decide) (by decide)⟩

/-- Claim C3: the upload orchestrator sorts the missing payloads by
descending byte size before chunking — the sorted list is a permutation
of the input in which every earlier element is at least as large as every
later one — and for parts of 9 MiB and 2 MiB the plan is two chunks with
the 9 MiB part first. -/
theorem c3_sort_desc_before_chunking :
    (∀ l : List Bytes, (sortDescBySize l).Perm l) ∧
    (∀ l : List Bytes,
      List.Pairwise (fun a b => b.length ≤ a.length) (sortDescBySize l)) ∧
    uploadChunkPlan
        [List.replicate (2 * 1024 * 1024) 0, List.replicate (9 * 1024 * 1024) 0] =
      [[List.replicate (9 * 1024 * 1024) 0], [List.replicate (2 * 1024 * 1024) 0]] := by
  refine ⟨fun l => List.perm_insertionSort byLenDesc l,
    fun l => List.sorted_insertionSort byLenDesc l, ?_⟩
  have h2 : (List.replicate (2 * 1024 * 1024) (0 : Nat)).length = 2097152 :=
    List.length_replicate _ _
  have h9 : (List.replicate (9 * 1024 * 1024) (0 : Nat)).length = 9437184 :=
    List.length_replicate _ _
  have h92 : ¬ byLenDesc (List.replicate (2 * 1024 * 1024) (0 : Nat))
      (List.replicate (9 * 1024 * 1024) (0 : Nat)) := by
    simp only [byLenDesc, h2, h9]
    omega
  simp only [uploadChunkPlan, sortDescBySize, List.insertionSort,
    List.orderedInsert, if_neg h92]
  rw [chunkSlice,
    chunkGo_cons_keep _ _ _ _ _ (fun h => absurd h.2 (lt_irrefl 0)),
    chunkGo_cons_flush _ _ _ _ _
      (by constructor <;> (simp only [Nat.zero_add, h2, h9]; omega)),
    chunkGo_nil_of_ne _ _ _ (List.cons_ne_nil _ _)]
  simp only [List.nil_append]

/-! ## Parallelism environment variables
(src/upload.go lines 27-37 and the download orchestrator)

Both read an environment variable with `os.Getenv` (empty string when
unset) and only adopt the parsed value when `strconv.Atoi` returns no
error: `if v, err := strconv.Atoi(s); err == nil { parallelism = v }`. -/

/-- ASCII decimal digit test, as in `strconv`. -/
def isDigitByte (c : Nat) : Bool := 48 ≤ c && c ≤ 57

/-- Numeric value of a digit string (left fold, base 10). -/
def digitsVal (ds : Bytes) : Nat := ds.foldl (fun a c => a * 10 + (c - 48)) 0

/-- `strconv.Atoi`: optional sign, then one or more decimal digits; any
other byte is a syntax error, and values outside the 64-bit signed range
are a range error.  Errors are `none`. -/
def atoi (s : Bytes) : Option Int :=
  match s with
  | [] => none
  | c :: rest =>
    let neg : Bool := c = 45
    let digits := if c = 43 ∨ c = 45 then rest else s
    if digits = [] then none
    else if digits.all isDigitByte then
      let v : Int := if neg then -(digitsVal digits : Int) else (digitsVal digits : Int)
      if v < -(2 ^ 63) ∨ 2 ^ 63 - 1 < v then none else some v
    else none

/-- src/upload.go lines 27-33: `UPLOAD_PARALLELISM`, default 3; a parse
error leaves the default in place. -/
def uploadParallelism (env : Bytes) : Int :=
  if env = [] then 3
  else
    match atoi env with
    | some v => v
    | none => 3

/-- The download orchestrator's `DOWNLOAD_PARALLELISM` handling (same
pattern, same default 3). -/
def downloadParallelism (env : Bytes) : Int :=
  if env = [] then 3
  else
    match atoi env with
    | some v => v
    | none => 3

/-- Claim C7, counterexample: with the variable set to `"abc"` (bytes
97 98 99), which does not parse as an integer, both orchestrators proceed
with the default 3 — the parse error is silently discarded by
`if err == nil`, so the invocation does not fail as the claim states. -/
theorem c7_env_counterexample :
    uploadParallelism [97, 98, 99] = 3 ∧ downloadParallelism [97, 98, 99] = 3 := by
  constructor <;> rfl

/-- Claim C7 (amended): the limits are read from `UPLOAD_PARALLELISM` and
`DOWNLOAD_PARALLELISM` with default 3 when unset; a value that parses as
an integer is adopted; a set but unparseable value is silently ignored
and the default 3 is kept (no error, no exit). -/
theorem c7_env_parallelism (env : Bytes) :
    (env = [] → uploadParallelism env = 3 ∧ downloadParallelism env = 3) ∧
    (∀ v, atoi env = some v →
      uploadParallelism env = v ∧ downloadParallelism env = v) ∧
    (env ≠ [] → atoi env = none →
      uploadParallelism env = 3 ∧ downloadParallelism env = 3) := by
  refine ⟨fun h => ?_, fun v hv => ?_, fun h hn => ?_⟩
  · subst h
    exact ⟨rfl, rfl⟩
  · have henv : env ≠ [] := by
      intro he
      rw [he] at hv
      exact Option.noConfusion (hv.symm.trans rfl)
    simp [uploadParallelism, downloadParallelism, henv, hv]
  · simp [uploadParallelism, downloadParallelism, h, hn]

/-- Witness for Claim C7's amended theorem: unset gives 3, and `"4"`
(byte 52) gives 4, in both orchestrators. -/
theorem c7_env_parallelism_witness :
    uploadParallelism [] = 3 ∧ downloadParallelism [] = 3 ∧
    uploadParallelism [52] = 4 ∧ downloadParallelism [52] = 4 :=
  have h1 := (c7_env_parallelism []).1 rfl
  have h2 := (c7_env_parallelism [52]).2.1 4 (by decide)
  ⟨h1.1, h1.2, h2.1, h2.2⟩

/-! ## Progress reader (src/progress/progressReader.go)

`NewReader` builds the wrapper with `total = len(b)`, `read = 0` and
immediately calls `showProgress`, which prints `read*100/total`.  Go
integer division by zero is a run-time panic, modelled as `none`. -/

/-- State of `progress.Reader` as far as arithmetic is concerned. -/
structure ProgressState where
  total : Nat
  read : Nat
deriving DecidableEq

/-- `showProgress` line 44: computes `r.read*100/r.total`; panics (`none`)
when `total` is zero. -/
def showProgress (read total : Nat) : Option Nat :=
  if total = 0 then none else some (read * 100 / total)

/-- `progress.NewReader` lines 19-28: constructs the state and immediately
shows progress once; a division-by-zero panic aborts construction. -/
def NewReader (b : Bytes) : Option ProgressState :=
  match showProgress 0 b.length with
  | none => none
  | some _ => some ⟨b.length, 0⟩

/-- Claim C9: constructing the progress reader over an empty buffer
panics (division by zero in the immediate `showProgress` call); for any
non-empty buffer construction succeeds.  `NewReader` is therefore only
safe for non-empty payloads. -/
theorem c9_progress_empty_panics :
    NewReader [] = none ∧
    ∀ b : Bytes, b ≠ [] → NewReader b = some ⟨b.length, 0⟩ := by
  refine ⟨rfl, fun b hb => ?_⟩
  have hlen : b.length ≠ 0 := fun h => hb (List.length_eq_zero.mp h)
  simp [NewReader, showProgress, hlen]

/-- Witness for Claim C9 at a one-byte buffer. -/
theorem c9_progress_empty_panics_witness :
    NewReader [7] = some ⟨1, 0⟩ :=
  c9_progress_empty_panics.2 [7] (by decide)

/-! ## Missing hashes absent from the content map
(src/main.go lines 155-157, src/upload.go lines 68-70)

`for _, h := range suggestResp.Missing { toUpload = append(toUpload, b.contents[h]) }`:
a Go map read of a missing key yields the zero value — a nil byte slice —
which is appended without any check. -/

/-- A Go map read `contents[h]` over the content map: the zero value
(nil slice, here `[]`) results when the key is absent. -/
def contentsGet (contents : List (Bytes × Bytes)) (h : Bytes) : Bytes :=
  match contents.find? (fun p => p.1 == h) with
  | some p => p.2
  | none => []

/-- The `toUpload` list built from the server's Missing list. -/
def toUploadFromMissing (contents : List (Bytes × Bytes))
    (missing : List Bytes) : List Bytes :=
  missing.map (contentsGet contents)

/-- Claim C10: when the server's Missing list contains a hash that is not
a key of the content map, the orchestrator does not fail: one entry is
produced per missing hash regardless, and the entry for an unknown hash
is the nil (empty) slice, appended and later transmitted silently. -/
theorem c10_missing_unknown_hash_silent (contents : List (Bytes × Bytes))
    (missing : List Bytes) :
    (toUploadFromMissing contents missing).length = missing.length ∧
    ∀ i (hi : i < missing.length)
      (hi2 : i < (toUploadFromMissing contents missing).length),
      (∀ p ∈ contents, p.1 ≠ missing.get ⟨i, hi⟩) →
      (toUploadFromMissing contents missing).get ⟨i, hi2⟩ = [] := by
  refine ⟨List.length_map _ _, fun i hi hi2 habs => ?_⟩
  have hfind : contents.find? (fun p => p.1 == missing.get ⟨i, hi⟩) = none := by
    rw [List.find?_eq_none]
    intro p hp
    simpa using habs p hp
  have hget : (toUploadFromMissing contents missing).get ⟨i, hi2⟩ =
      contentsGet contents (missing.get ⟨i, hi⟩) := by
    simp [toUploadFromMissing]
  rw [hget, contentsGet, hfind]

/-- Witness for Claim C10: content map with single key `[1]`, missing
list `[[2]]`; the unknown hash produces the empty part. -/
theorem c10_missing_unknown_hash_silent_witness :
    (toUploadFromMissing [([1], [9])] [[2]]).length = 1 ∧
    (toUploadFromMissing [([1], [9])] [[2]]).get ⟨0, by decide⟩ = [] :=
  have h := c10_missing_unknown_hash_silent [([1], [9])] [[2]]
  ⟨h.1, h.2 0 (by decide) (by decide) (by decide)⟩

/-! ## Manifest tree, ingestion and canonical serialisation
(src/protocol/tree.go, src/key.go lines 48-90, src/protocol/transfer.go)

`protocol.Node` has a `Children` map at wire tag 1 and an optional `Hash`
pointer at wire tag 2, each with `omitempty` (the current revision stores
the hash through a pointer: `traverse` assigns `Hash: &hash` and the
download path tests `node.Hash != nil`).  The client serializes the node
with fxamacker/cbor `CanonicalEncOptions` (RFC 7049 section 3.9 canonical
form: shortest-form heads, map keys sorted by encoded bytes — length
first, then bytewise).  File bodies are hashed with BLAKE3-256; the hash
function is a parameter `hf` here, so every theorem holds for the real
BLAKE3 instance.  Strings are byte slices in Go, so names are `Bytes`.
-/

inductive Node where
  | mk (children : List (Bytes × Node)) (hash : Option Bytes)

/-- The `Children` field (wire tag 1). -/
def Node.children : Node → List (Bytes × Node)
  | .mk c _ => c

/-- The `Hash` pointer field (wire tag 2); `none` models a nil pointer. -/
def Node.hash : Node → Option Bytes
  | .mk _ h => h

inductive FSTree where
  | file (content : Bytes)
  | dir (entries : List (Bytes × FSTree))

def isDirT : FSTree → Bool
  | .file _ => false
  | .dir _ => true

def gitName : Bytes := [46, 103, 105, 116]

def traverseNode (hf : Bytes → Bytes) : FSTree → Node
  | .file c => .mk [] (some (hf c))
  | .dir l => .mk (l.attach.filterMap (fun e =>
      if isDirT e.1.2 ∧ e.1.1 = gitName then none
      else some (e.1.1, traverseNode hf e.1.2))) none
termination_by t => sizeOf t
decreasing_by
  rcases e with ⟨⟨n, t⟩, hm⟩
  have h := List.sizeOf_lt_of_mem hm
  simp at *
  omega

def gitEquivB : FSTree → FSTree → Bool
  | .file c1, .file c2 => c1 == c2
  | .dir l1, .dir l2 =>
      l1.length == l2.length &&
      (l1.zip l2).attach.all (fun e =>
        (e.1.1.1 == e.1.2.1) &&
        (if e.1.1.1 = gitName ∧ isDirT e.1.1.2 ∧ isDirT e.1.2.2 then true
         else gitEquivB e.1.1.2 e.1.2.2))
  | .file _, .dir _ => false
  | .dir _, .file _ => false
termination_by t1 _ => sizeOf t1
decreasing_by
  rcases e with ⟨⟨⟨n1, t1x⟩, ⟨n2, t2x⟩⟩, hm⟩
  have h := List.sizeOf_lt_of_mem (List.of_mem_zip hm).1
  simp at *
  omega

def encodeHead (m n : Nat) : Bytes :=
  if n < 24 then [32 * m + n]
  else if n < 256 then [32 * m + 24, n]
  else if n < 65536 then [32 * m + 25, n / 256, n % 256]
  else if n < 4294967296 then
    [32 * m + 26, n / 16777216 % 256, n / 65536 % 256, n / 256 % 256, n % 256]
  else
    [32 * m + 27, n / 72057594037927936 % 256, n / 281474976710656 % 256,
      n / 1099511627776 % 256, n / 4294967296 % 256, n / 16777216 % 256,
      n / 65536 % 256, n / 256 % 256, n % 256]

def encodeBytes (b : Bytes) : Bytes := encodeHead 2 b.length ++ b

def encodeText (s : Bytes) : Bytes := encodeHead 3 s.length ++ s

def lexLtB : Bytes → Bytes → Bool
  | [], [] => false
  | [], _ :: _ => true
  | _ :: _, [] => false
  | a :: as, b :: bs =>
    if a < b then true else if a = b then lexLtB as bs else false

def keyLtB (a b : Bytes) : Bool :=
  if a.length < b.length then true
  else if a.length = b.length then lexLtB a b
  else false

def keyLe (p q : Bytes × Bytes) : Prop := keyLtB q.1 p.1 = false

instance : DecidableRel keyLe := fun _ _ => inferInstanceAs (Decidable (_ = false))

def sortPairs (l : List (Bytes × Bytes)) : List (Bytes × Bytes) :=
  List.insertionSort keyLe l

def encodeNode : Node → Bytes
  | .mk children hash =>
    let pairs := children.attach.map (fun c => (c.1.1, encodeNode c.1.2))
    let sorted := sortPairs pairs
    let childBytes := encodeHead 5 sorted.length ++
      (sorted.map (fun p => encodeText p.1 ++ p.2)).flatten
    let fields : List (Nat × Bytes) :=
      (if children.isEmpty then [] else [(1, childBytes)]) ++
      (match hash with | some h => [(2, encodeBytes h)] | none => [])
    encodeHead 5 fields.length ++
      (fields.map (fun f => encodeHead 0 f.1 ++ f.2)).flatten
termination_by n => sizeOf n
decreasing_by
  rcases c with ⟨⟨nm, nd⟩, hm⟩
  have h := List.sizeOf_lt_of_mem hm
  simp at *
  omega

def encodeChildren (children : List (Bytes × Node)) : Bytes :=
  let sorted := sortPairs (children.map (fun c => (c.1, encodeNode c.2)))
  encodeHead 5 sorted.length ++ (sorted.map (fun p => encodeText p.1 ++ p.2)).flatten

def nodeFields : Node → List (Nat × Bytes)
  | .mk children hash =>
    (if children.isEmpty then [] else [(1, encodeChildren children)]) ++
    (match hash with | some h => [(2, encodeBytes h)] | none => [])

theorem encodeNode_eq (n : Node) :
    encodeNode n = encodeHead 5 (nodeFields n).length ++
      ((nodeFields n).map (fun f => encodeHead 0 f.1 ++ f.2)).flatten := by
  cases n with
  | mk children hash =>
    unfold encodeNode
    have hattach : children.attach.map (fun c => (c.1.1, encodeNode c.1.2)) =
        children.map (fun c => (c.1, encodeNode c.2)) :=
      List.attach_map_val children (fun c => (c.1, encodeNode c.2))
    simp only [nodeFields, encodeChildren, hattach]

theorem lexLtB_irrefl (a : Bytes) : lexLtB a a = false := by
  induction a with
  | nil => rfl
  | cons x xs ih => simp [lexLtB, ih]

theorem lexLtB_trans (a b c : Bytes) (h1 : lexLtB a b = true)
    (h2 : lexLtB b c = true) : lexLtB a c = true := by
  induction a generalizing b c with
  | nil =>
    cases b with
    | nil => simp [lexLtB] at h1
    | cons y ys =>
      cases c with
      | nil => simp [lexLtB] at h2
      | cons z zs => simp [lexLtB]
  | cons x xs ih =>
    cases b with
    | nil => simp [lexLtB] at h1
    | cons y ys =>
      cases c with
      | nil => simp [lexLtB] at h2
      | cons z zs =>
        simp only [lexLtB] at h1 h2 ⊢
        split at h1
        · -- x < y
          split at h2
          · -- y < z
            have : x < z := by omega
            simp [this]
          · split at h2
            · -- y = z
              rename_i hxy hyz hyz2
              have : x < z := by omega
              simp [this]
            · simp at h2
        · split at h1
          · -- x = y
            rename_i hxy hxyeq
            subst hxyeq
            split at h2
            · simp_all
            · split at h2
              · rename_i hyz hyzeq
                subst hyzeq
                simp only [if_neg hxy, if_pos rfl]
                exact ih _ _ h1 h2
              · simp at h2
          · simp at h1

theorem lexLtB_trichotomy (a b : Bytes) :
    lexLtB a b = true ∨ a = b ∨ lexLtB b a = true := by
  induction a generalizing b with
  | nil =>
    cases b with
    | nil => simp
    | cons y ys => left; rfl
  | cons x xs ih =>
    cases b with
    | nil => right; right; rfl
    | cons y ys =>
      rcases Nat.lt_trichotomy x y with h | h | h
      · left; simp [lexLtB, h]
      · subst h
        rcases ih ys with h2 | h2 | h2
        · left; simp [lexLtB, h2]
        · right; left; rw [h2]
        · right; right; simp [lexLtB, h2]
      · right; right; simp [lexLtB, h]

theorem lexLtB_asymm (a b : Bytes) (h : lexLtB a b = true) :
    lexLtB b a = false := by
  by_contra hc
  have hba : lexLtB b a = true := by
    cases hx : lexLtB b a
    · exact absurd hx hc
    · rfl
  have := lexLtB_trans a b a h hba
  rw [lexLtB_irrefl] at this
  exact Bool.noConfusion this

theorem keyLtB_irrefl (a : Bytes) : keyLtB a a = false := by
  simp [keyLtB, lexLtB_irrefl]

theorem keyLtB_trans (a b c : Bytes) (h1 : keyLtB a b = true)
    (h2 : keyLtB b c = true) : keyLtB a c = true := by
  simp only [keyLtB] at h1 h2 ⊢
  split at h1 <;> split at h2 <;> rename_i ha hb
  · simp; omega
  · split at h2
    · rename_i hbc
      simp; omega
    · simp at h2
  · split at h1
    · rename_i hab
      simp; omega
    · simp at h1
  · split at h1 <;> split at h2
    · rename_i hab hbc
      have hac : a.length = c.length := by omega
      have h3 := lexLtB_trans a b c h1 h2
      simp [if_neg (by omega : ¬ a.length < c.length), hac, h3]
    · simp at h2
    · simp at h1
    · simp at h1

theorem keyLtB_asymm (a b : Bytes) (h : keyLtB a b = true) :
    keyLtB b a = false := by
  by_contra hc
  have hba : keyLtB b a = true := by
    cases hx : keyLtB b a
    · exact absurd hx hc
    · rfl
  have := keyLtB_trans a b a h hba
  rw [keyLtB_irrefl] at this
  exact Bool.noConfusion this

theorem keyLtB_trichotomy (a b : Bytes) :
    keyLtB a b = true ∨ a = b ∨ keyLtB b a = true := by
  rcases Nat.lt_trichotomy a.length b.length with h | h | h
  · left; simp [keyLtB, h]
  · rcases lexLtB_trichotomy a b with h2 | h2 | h2
    · left; simp [keyLtB, h, h2]
    · right; left; exact h2
    · right; right; simp [keyLtB, h.symm, h2]
  · right; right; simp [keyLtB, h]

/-- Strict canonical order on (key, encoded value) pairs. -/
def pairKeyLt (p q : Bytes × Bytes) : Prop := keyLtB p.1 q.1 = true

instance : IsAntisymm (Bytes × Bytes) pairKeyLt :=
  ⟨fun p q h1 h2 => by
    unfold pairKeyLt at h1 h2
    rw [keyLtB_asymm p.1 q.1 h1] at h2
    exact Bool.noConfusion h2⟩

instance : IsTotal (Bytes × Bytes) keyLe :=
  ⟨fun p q => by
    unfold keyLe
    cases hx : keyLtB q.1 p.1
    · left; rfl
    · right; exact keyLtB_asymm q.1 p.1 hx⟩

instance : IsTrans (Bytes × Bytes) keyLe :=
  ⟨fun p q s h1 h2 => by
    unfold keyLe at *
    cases hx : keyLtB s.1 p.1
    · rfl
    · exfalso
      rcases keyLtB_trichotomy q.1 p.1 with h3 | h3 | h3
      · rw [h3] at h1; exact Bool.noConfusion h1
      · rw [← h3] at hx
        rw [hx] at h2
        exact Bool.noConfusion h2
      · have h5 := keyLtB_trans s.1 p.1 q.1 hx h3
        rw [h5] at h2
        exact Bool.noConfusion h2⟩

theorem sortPairs_perm (l : List (Bytes × Bytes)) : (sortPairs l).Perm l :=
  List.perm_insertionSort keyLe l

theorem sortPairs_sorted (l : List (Bytes × Bytes)) :
    List.Sorted keyLe (sortPairs l) :=
  List.sorted_insertionSort keyLe l

theorem sortPairs_strict (l : List (Bytes × Bytes))
    (hnd : (l.map Prod.fst).Nodup) :
    List.Pairwise pairKeyLt (sortPairs l) := by
  have hndp : ((sortPairs l).map Prod.fst).Nodup := by
    have hmp : ((sortPairs l).map Prod.fst).Perm (l.map Prod.fst) :=
      (sortPairs_perm l).map Prod.fst
    exact hmp.nodup_iff.mpr hnd
  have hne : List.Pairwise (fun p q : Bytes × Bytes => p.1 ≠ q.1) (sortPairs l) := by
    unfold List.Nodup at hndp
    rwa [List.pairwise_map] at hndp
  have hle : List.Pairwise keyLe (sortPairs l) := sortPairs_sorted l
  refine (hle.and hne).imp ?_
  intro p q hpq
  rcases keyLtB_trichotomy p.1 q.1 with h | h | h
  · exact h
  · exact absurd h hpq.2
  · exact absurd h (by rw [hpq.1]; simp)

theorem sortPairs_eq_of_perm (l1 l2 : List (Bytes × Bytes)) (hp : l1.Perm l2)
    (hnd : (l1.map Prod.fst).Nodup) : sortPairs l1 = sortPairs l2 := by
  have hperm : (sortPairs l1).Perm (sortPairs l2) :=
    (sortPairs_perm l1).trans (hp.trans (sortPairs_perm l2).symm)
  have hnd2 : (l2.map Prod.fst).Nodup := ((hp.map Prod.fst).nodup_iff).mp hnd
  exact List.eq_of_perm_of_sorted hperm (sortPairs_strict l1 hnd)
    (sortPairs_strict l2 hnd2)

theorem encodeNode_perm (oh : Option Bytes) (l1 l2 : List (Bytes × Node))
    (hp : (l1.map (fun p => (p.1, encodeNode p.2))).Perm
      (l2.map (fun p => (p.1, encodeNode p.2))))
    (hnd : (l1.map Prod.fst).Nodup) :
    encodeNode (Node.mk l1 oh) = encodeNode (Node.mk l2 oh) := by
  have hlen : l1.length = l2.length := by simpa using hp.length_eq
  have hempty : l1.isEmpty = l2.isEmpty := by
    cases l1 <;> cases l2 <;> simp_all
  have hnd1 : ((l1.map (fun p => (p.1, encodeNode p.2))).map Prod.fst).Nodup := by
    rw [List.map_map]
    exact hnd
  have hsorteq : sortPairs (l1.map (fun p => (p.1, encodeNode p.2))) =
      sortPairs (l2.map (fun p => (p.1, encodeNode p.2))) :=
    sortPairs_eq_of_perm _ _ hp hnd1
  have hch : encodeChildren l1 = encodeChildren l2 := by
    simp only [encodeChildren, hsorteq]
  have hfields : nodeFields (Node.mk l1 oh) = nodeFields (Node.mk l2 oh) := by
    simp only [nodeFields, hch, hempty]
  rw [encodeNode_eq, encodeNode_eq, hfields]

theorem attach_filterMap_val {α β : Type} (l : List α) (g : α → Option β) :
    l.attach.filterMap (fun i => g i.1) = l.filterMap g := by
  induction l with
  | nil => rfl
  | cons a t ih =>
    rw [List.attach_cons, List.filterMap_cons, List.filterMap_cons,
      List.filterMap_map]
    rw [show ((fun i : {x // x ∈ a :: t} => g i.1) ∘
        (fun x : {x // x ∈ t} =>
          (⟨x.1, List.mem_cons_of_mem a x.2⟩ : {x // x ∈ a :: t}))) =
        (fun i : {x // x ∈ t} => g i.1) from rfl]
    rw [ih]

theorem attach_all_val {α : Type} (l : List α) (p : α → Bool) :
    l.attach.all (fun i => p i.1) = l.all p := by
  rw [Bool.eq_iff_iff, List.all_eq_true, List.all_eq_true]
  constructor
  · intro h x hx
    exact h ⟨x, hx⟩ (List.mem_attach _ _)
  · intro h e _
    exact h e.1 e.2

theorem traverseNode_file (hf : Bytes → Bytes) (c : Bytes) :
    traverseNode hf (.file c) = .mk [] (some (hf c)) := by
  simp [traverseNode]

/-- The per-entry step of `traverse`: skip directories named `.git`,
recurse otherwise. -/
def travEntry (hf : Bytes → Bytes) (e : Bytes × FSTree) : Option (Bytes × Node) :=
  if isDirT e.2 ∧ e.1 = gitName then none else some (e.1, traverseNode hf e.2)

theorem traverseNode_dir (hf : Bytes → Bytes) (l : List (Bytes × FSTree)) :
    traverseNode hf (.dir l) = .mk (l.filterMap (travEntry hf)) none := by
  rw [show traverseNode hf (.dir l) = .mk (l.attach.filterMap (fun e =>
      if isDirT e.1.2 ∧ e.1.1 = gitName then none
      else some (e.1.1, traverseNode hf e.1.2))) none from by simp [traverseNode]]
  rw [attach_filterMap_val l (fun e =>
    if isDirT e.2 ∧ e.1 = gitName then none
    else some (e.1, traverseNode hf e.2))]
  rfl

theorem gitEquivB_dir (l1 l2 : List (Bytes × FSTree)) :
    gitEquivB (.dir l1) (.dir l2) =
      ((l1.length == l2.length) && (l1.zip l2).all (fun e =>
        (e.1.1 == e.2.1) &&
        (if e.1.1 = gitName ∧ isDirT e.1.2 ∧ isDirT e.2.2 then true
         else gitEquivB e.1.2 e.2.2))) := by
  rw [show gitEquivB (.dir l1) (.dir l2) =
      ((l1.length == l2.length) && (l1.zip l2).attach.all (fun e =>
        (e.1.1.1 == e.1.2.1) &&
        (if e.1.1.1 = gitName ∧ isDirT e.1.1.2 ∧ isDirT e.1.2.2 then true
         else gitEquivB e.1.1.2 e.1.2.2))) from by simp [gitEquivB]]
  rw [attach_all_val (l1.zip l2) (fun e =>
    (e.1.1 == e.2.1) &&
    (if e.1.1 = gitName ∧ isDirT e.1.2 ∧ isDirT e.2.2 then true
     else gitEquivB e.1.2 e.2.2))]

theorem travEntries_eq_aux (hf : Bytes → Bytes) (N : Nat)
    (ih : ∀ t1 t2, sizeOf t1 < N → gitEquivB t1 t2 = true →
      traverseNode hf t1 = traverseNode hf t2) :
    ∀ l1 l2 : List (Bytes × FSTree),
      l1.length = l2.length →
      (∀ e ∈ l1.zip l2, ((e.1.1 == e.2.1) &&
        (if e.1.1 = gitName ∧ isDirT e.1.2 ∧ isDirT e.2.2 then true
         else gitEquivB e.1.2 e.2.2)) = true) →
      (∀ x ∈ l1, sizeOf x.2 < N) →
      l1.filterMap (travEntry hf) = l2.filterMap (travEntry hf) := by
  intro l1
  induction l1 with
  | nil =>
    intro l2 hlen _ _
    cases l2 with
    | nil => rfl
    | cons b r2 => simp at hlen
  | cons a r1 ihl =>
    intro l2 hlen hall hsz
    cases l2 with
    | nil => simp at hlen
    | cons b r2 =>
      obtain ⟨n1, s1⟩ := a
      obtain ⟨n2, s2⟩ := b
      have hhead := hall ((n1, s1), (n2, s2)) (by simp [List.zip_cons_cons])
      dsimp only at hhead
      rw [Bool.and_eq_true] at hhead
      obtain ⟨hname, hbranch⟩ := hhead
      have hn : n1 = n2 := by simpa using hname
      have htail : r1.filterMap (travEntry hf) = r2.filterMap (travEntry hf) := by
        refine ihl r2 (by simpa using hlen) ?_ ?_
        · intro e he
          exact hall e (by simp [List.zip_cons_cons, he])
        · intro x hx
          exact hsz x (List.mem_cons_of_mem _ hx)
      have hs1lt : sizeOf s1 < N := hsz (n1, s1) (List.mem_cons_self _ _)
      simp only [List.filterMap_cons]
      by_cases hskip : isDirT s1 ∧ n1 = gitName
      · -- s1 is a dir named .git; s2 must also be a dir (a file would make
        -- gitEquivB false), so both entries are skipped
        have hd2 : isDirT s2 = true := by
          by_contra hnd2
          have : gitEquivB s1 s2 = true := by
            have hcond : ¬ (n1 = gitName ∧ isDirT s1 ∧ isDirT s2) := by
              intro hc
              exact hnd2 hc.2.2
            rwa [if_neg hcond] at hbranch
          cases s1 with
          | file c => simp [isDirT] at hskip
          | dir ll =>
            cases s2 with
            | file c2 => simp [gitEquivB] at this
            | dir ll2 => simp [isDirT] at hnd2
        have hskip2 : isDirT s2 ∧ n2 = gitName := ⟨hd2, hn ▸ hskip.2⟩
        rw [travEntry, if_pos hskip, travEntry, if_pos hskip2]
        exact htail
      · -- the first entry is not skipped; neither is the second
        have heqt : traverseNode hf s1 = traverseNode hf s2 := by
          apply ih s1 s2 hs1lt
          by_cases hgit : n1 = gitName
          · -- then s1 is not a dir; s2 cannot be a dir either
            have hnd1 : isDirT s1 = false := by
              cases hx : isDirT s1
              · rfl
              · exact absurd ⟨hx, hgit⟩ hskip
            have hcond : ¬ (n1 = gitName ∧ isDirT s1 ∧ isDirT s2) := by
              intro hc
              rw [hnd1] at hc
              exact Bool.noConfusion hc.2.1
            rwa [if_neg hcond] at hbranch
          · have hcond : ¬ (n1 = gitName ∧ isDirT s1 ∧ isDirT s2) := by
              intro hc
              exact hgit hc.1
            rwa [if_neg hcond] at hbranch
        have hskip2 : ¬ (isDirT s2 ∧ n2 = gitName) := by
          intro hc
          apply hskip
          refine ⟨?_, hn ▸ hc.2⟩
          -- s2 is a dir with the same traversal; s1 must be a dir too
          cases s1 with
          | dir ll => rfl
          | file c =>
            exfalso
            cases s2 with
            | file c2 => simp [isDirT] at hc
            | dir ll2 =>
              rw [traverseNode_file, traverseNode_dir] at heqt
              have h2 : some (hf c) = (none : Option Bytes) :=
                congrArg Node.hash heqt
              exact Option.noConfusion h2
        rw [travEntry, if_neg hskip, travEntry, if_neg hskip2]
        rw [hn, heqt, htail]

theorem traverse_eq_of_gitEquiv (hf : Bytes → Bytes) :
    ∀ N t1 t2, sizeOf t1 < N → gitEquivB t1 t2 = true →
      traverseNode hf t1 = traverseNode hf t2 := by
  intro N
  induction N with
  | zero => intro t1 t2 h _; omega
  | succ N ih =>
    intro t1 t2 hsz heq
    cases t1 with
    | file c1 =>
      cases t2 with
      | file c2 =>
        have hc : c1 = c2 := by simpa [gitEquivB] using heq
        rw [hc]
      | dir l2 => simp [gitEquivB] at heq
    | dir l1 =>
      cases t2 with
      | file c2 => simp [gitEquivB] at heq
      | dir l2 =>
        rw [gitEquivB_dir, Bool.and_eq_true] at heq
        obtain ⟨hlen, hall⟩ := heq
        rw [List.all_eq_true] at hall
        rw [traverseNode_dir, traverseNode_dir]
        have hlsz : ∀ x ∈ l1, sizeOf x.2 < N := by
          intro x hx
          have h1 := List.sizeOf_lt_of_mem hx
          obtain ⟨xn, xt⟩ := x
          simp at *
          omega
        rw [travEntries_eq_aux hf N ih l1 l2 (by simpa using hlen) hall hlsz]

/-- All nodes of a manifest tree (the node itself and, recursively, all
nodes below its children). -/
def collectNodes : Node → List Node
  | .mk children hash =>
    .mk children hash :: (children.attach.map (fun c => collectNodes c.1.2)).flatten
termination_by n => sizeOf n
decreasing_by
  rcases c with ⟨⟨nm, nd⟩, hm⟩
  have h := List.sizeOf_lt_of_mem hm
  simp at *
  omega

theorem collectNodes_eq (children : List (Bytes × Node)) (hash : Option Bytes) :
    collectNodes (.mk children hash) =
      .mk children hash :: (children.map (fun c => collectNodes c.2)).flatten := by
  rw [show collectNodes (.mk children hash) = .mk children hash ::
      (children.attach.map (fun c => collectNodes c.1.2)).flatten from by
    simp [collectNodes]]
  have hattach : children.attach.map (fun c => collectNodes c.1.2) =
      children.map (fun c => collectNodes c.2) :=
    List.attach_map_val children (fun c => collectNodes c.2)
  rw [hattach]

theorem nodeFields_no_tag2_of_none (n : Node) (h : n.hash = none) :
    ∀ v, (2, v) ∉ nodeFields n := by
  cases n with
  | mk c hh =>
    simp only [Node.hash] at h
    subst h
    intro v hv
    simp only [nodeFields, List.append_nil] at hv
    by_cases he : c.isEmpty
    · rw [if_pos he] at hv
      exact List.not_mem_nil _ hv
    · rw [if_neg he] at hv
      rcases List.mem_singleton.mp hv with h2
      exact absurd (congrArg Prod.fst h2) (by simp)

theorem c6_aux (hf : Bytes → Bytes) :
    ∀ N t, sizeOf t < N → ∀ n ∈ collectNodes (traverseNode hf t),
      (∀ hv, n.hash = some hv →
        (∃ c, n = Node.mk [] (some (hf c))) ∧
        (2, encodeBytes hv) ∈ nodeFields n) ∧
      (n.hash = none → ∀ v, (2, v) ∉ nodeFields n) := by
  intro N
  induction N with
  | zero => intro t h _ _; omega
  | succ N ih =>
    intro t hsz n hn
    cases t with
    | file c =>
      rw [traverseNode_file, collectNodes_eq] at hn
      simp only [List.map_nil, List.flatten_nil] at hn
      rcases List.mem_singleton.mp hn with rfl
      constructor
      · intro hv hsome
        simp only [Node.hash] at hsome
        rcases Option.some.injEq _ _ ▸ hsome with rfl
        refine ⟨⟨c, rfl⟩, ?_⟩
        simp [nodeFields, encodeBytes]
      · intro hnone
        simp [Node.hash] at hnone
    | dir l =>
      rw [traverseNode_dir, collectNodes_eq] at hn
      rcases List.mem_cons.mp hn with rfl | hn2
      · constructor
        · intro hv hsome
          simp [Node.hash] at hsome
        · intro _
          exact nodeFields_no_tag2_of_none _ (by simp [Node.hash])
      · rcases List.mem_flatten.mp hn2 with ⟨sub, hsub, hnsub⟩
        rcases List.mem_map.mp hsub with ⟨⟨nm, nd⟩, hmem, rfl⟩
        rcases List.mem_filterMap.mp hmem with ⟨e, he, hte⟩
        rw [travEntry] at hte
        by_cases hskip : isDirT e.2 ∧ e.1 = gitName
        · rw [if_pos hskip] at hte
          exact Option.noConfusion hte
        · rw [if_neg hskip] at hte
          have hnd : nd = traverseNode hf e.2 :=
            ((Prod.mk.injEq _ _ _ _).mp (Option.some.injEq _ _ ▸ hte)).2.symm
          have helt : sizeOf e.2 < N := by
            have h1 := List.sizeOf_lt_of_mem he
            obtain ⟨en, et⟩ := e
            simp at *
            omega
          exact ih e.2 helt n (by rw [← hnd]; exact hnsub)

/-- Claim C4: ingestion skips directory entries named `.git`; two trees
that agree except inside `.git` directory subtrees produce equal manifest
nodes, hence bit-identical serialized manifests and equal Bundle IDs
(the Bundle ID being any function — e.g. BLAKE3-256 — of the serialized
bytes).  `hf` is the content-hash function applied to file bodies. -/
theorem c4_git_invariance (hf : Bytes → Bytes) (t1 t2 : FSTree)
    (heq : gitEquivB t1 t2 = true) :
    traverseNode hf t1 = traverseNode hf t2 ∧
    encodeNode (traverseNode hf t1) = encodeNode (traverseNode hf t2) ∧
    ∀ bundleId : Bytes → Bytes,
      bundleId (encodeNode (traverseNode hf t1)) =
        bundleId (encodeNode (traverseNode hf t2)) := by
  have h := traverse_eq_of_gitEquiv hf (sizeOf t1 + 1) t1 t2 (by omega) heq
  exact ⟨h, by rw [h], fun f => by rw [h]⟩

/-- Witness for Claim C4: a tree whose `.git` directory contains a file
and a tree whose `.git` directory is empty ingest to the same manifest. -/
theorem c4_git_invariance_witness :
    traverseNode (fun _ => [0])
        (FSTree.dir [(gitName, FSTree.dir [([97], FSTree.file [1])])]) =
      traverseNode (fun _ => [0]) (FSTree.dir [(gitName, FSTree.dir [])]) :=
  (c4_git_invariance (fun _ => [0]) _ _
    (by rw [gitEquivB_dir]; simp [isDirT])).1

/-- Claim C5: manifest serialisation is canonical — the encoder sorts each
children map by the canonical key order, so two presentations of the same
children map (same name/encoded-child multiset, e.g. two Go map iteration
orders) yield bit-identical bytes, and therefore equal Bundle IDs for any
hash function of the bytes.  Determinism across runs is immediate because
the embedded serializer is a function of the manifest value. -/
theorem c5_canonical_serialisation (oh : Option Bytes)
    (l1 l2 : List (Bytes × Node))
    (hp : (l1.map (fun p => (p.1, encodeNode p.2))).Perm
      (l2.map (fun p => (p.1, encodeNode p.2))))
    (hnd : (l1.map Prod.fst).Nodup) :
    encodeNode (Node.mk l1 oh) = encodeNode (Node.mk l2 oh) ∧
    ∀ bundleId : Bytes → Bytes,
      bundleId (encodeNode (Node.mk l1 oh)) =
        bundleId (encodeNode (Node.mk l2 oh)) :=
  have h := encodeNode_perm oh l1 l2 hp hnd
  ⟨h, fun f => by rw [h]⟩

/-- Witness for Claim C5: swapping the two children of a directory node
leaves the encoding unchanged. -/
theorem c5_canonical_serialisation_witness :
    encodeNode (Node.mk [([0], Node.mk [] (some [1])), ([1], Node.mk [] none)] none) =
      encodeNode (Node.mk [([1], Node.mk [] none), ([0], Node.mk [] (some [1]))] none) :=
  (c5_canonical_serialisation none _ _
    (by simp only [List.map_cons, List.map_nil]; exact List.Perm.swap _ _ _)
    (by decide)).1

/-- Claim C6: in the serialized Node record the hash field at wire tag 2
is present exactly for file nodes: every node produced by ingestion with
a hash is a file node `Node.mk [] (some (hf c))` carrying its content
hash at tag 2, and no hash-less (directory) node's record contains a
tag-2 field. -/
theorem c6_hash_tag_presence (hf : Bytes → Bytes) (t : FSTree) :
    ∀ n ∈ collectNodes (traverseNode hf t),
      (∀ hv, n.hash = some hv →
        (∃ c, n = Node.mk [] (some (hf c))) ∧
        (2, encodeBytes hv) ∈ nodeFields n) ∧
      (n.hash = none → ∀ v, (2, v) ∉ nodeFields n) :=
  c6_aux hf (sizeOf t + 1) t (by omega)

/-- Witness for Claim C6: the manifest of a one-file tree; its file node
carries tag 2 with the content hash, its root directory node does not. -/
theorem c6_hash_tag_presence_witness :
    ((∃ c, Node.mk [] (some ((fun b => 0 :: b) [5])) =
        Node.mk [] (some ((fun b => 0 :: b) c))) ∧
      (2, encodeBytes (0 :: [5])) ∈
        nodeFields (Node.mk [] (some ((fun b => 0 :: b) [5])))) ∧
    ∀ v, (2, v) ∉ nodeFields (traverseNode (fun b => 0 :: b)
        (FSTree.dir [([97], FSTree.file [5])])) := by
  constructor
  · have h := c6_hash_tag_presence (fun b => 0 :: b)
      (FSTree.dir [([97], FSTree.file [5])])
    have hn : Node.mk [] (some (0 :: [5])) ∈ collectNodes
        (traverseNode (fun b => 0 :: b) (FSTree.dir [([97], FSTree.file [5])])) := by
      rw [traverseNode_dir]
      simp only [List.filterMap_cons, List.filterMap_nil, travEntry, isDirT]
      rw [if_neg (by simp [isDirT])]
      rw [traverseNode_file, collectNodes_eq]
      simp [collectNodes_eq]
    exact (h _ hn).1 (0 :: [5]) rfl
  · have h := c6_hash_tag_presence (fun b => 0 :: b)
      (FSTree.dir [([97], FSTree.file [5])])
    have hroot : traverseNode (fun b => 0 :: b)
        (FSTree.dir [([97], FSTree.file [5])]) ∈ collectNodes
        (traverseNode (fun b => 0 :: b) (FSTree.dir [([97], FSTree.file [5])])) := by
      rw [traverseNode_dir, collectNodes_eq]
      exact List.mem_cons_self _ _
    refine (h _ hroot).2 ?_
    rw [traverseNode_dir]
    simp [Node.hash]

/-! ## Download path safety (download orchestrator: download.go with safePath)

The current revision of the download orchestrator checks every child name
with `safePath` before recursing: `joined := filepath.Join(base, name)`,
`absBase := filepath.Abs(base)`, `absJoined := filepath.Abs(joined)`, and
the child is rejected with a path-traversal error unless `absJoined`
equals `absBase` or has `absBase + "/"` as a prefix.  Rejection is
collected like any other child error and makes the whole traversal return
an error.  Go `filepath.Clean`, `Join`, `IsAbs` and `Abs` (Unix rules)
are embedded below over byte strings. -/

/-- Byte value of `/`. -/
def slashB : Nat := 47

/-- Byte value of `.`. -/
def dotB : Nat := 46

/-- Split a byte string on `/`; `splitSlash "a/b" = ["a", "b"]`, with
empty components for repeated or leading separators. -/
def splitSlash : Bytes → List Bytes
  | [] => [[]]
  | c :: rest =>
    let r := splitSlash rest
    if c = slashB then [] :: r
    else
      match r with
      | [] => [[c]]
      | h :: t => (c :: h) :: t

/-- The element loop of Go `filepath.Clean` (Unix rules): `out` holds the
cleaned elements in reverse.  Empty and `.` elements are dropped; `..`
pops a poppable element, is dropped at the root of a rooted path, and is
kept at the head of a relative path. -/
def cleanStack (rooted : Bool) : List Bytes → List Bytes → List Bytes
  | out, [] => out
  | out, c :: cs =>
    if c = [] ∨ c = [dotB] then cleanStack rooted out cs
    else if c = [dotB, dotB] then
      match out with
      | [] => if rooted then cleanStack rooted [] cs
              else cleanStack rooted [[dotB, dotB]] cs
      | last :: restOut =>
        if last = [dotB, dotB] then cleanStack rooted (c :: out) cs
        else cleanStack rooted restOut cs
    else cleanStack rooted (c :: out) cs

/-- Join components with `/`. -/
def joinComps : List Bytes → Bytes
  | [] => []
  | [c] => c
  | c :: rest => c ++ slashB :: joinComps rest

/-- Go `filepath.Clean` for Unix paths. -/
def cleanPath (p : Bytes) : Bytes :=
  if p = [] then [dotB]
  else
    let rooted : Bool := p.head? == some slashB
    let out := (cleanStack rooted [] (splitSlash p)).reverse
    let body := joinComps out
    if rooted then slashB :: body
    else if body = [] then [dotB] else body

/-- Go `filepath.Join` of two elements: non-empty elements joined with
`/`, then cleaned; all-empty input stays empty. -/
def joinPath (a b : Bytes) : Bytes :=
  if a = [] then (if b = [] then [] else cleanPath b)
  else if b = [] then cleanPath a
  else cleanPath (a ++ slashB :: b)

/-- Go `filepath.IsAbs` for Unix. -/
def isAbsPath (p : Bytes) : Bool := p.head? == some slashB

/-- Go `filepath.Abs` given the working directory `cwd` (assumed
absolute): an absolute path is cleaned, a relative one joined onto
`cwd`. -/
def absPath (cwd p : Bytes) : Bytes :=
  if isAbsPath p then cleanPath p else joinPath cwd p

/-- The acceptance predicate of `safePath`: the canonicalised path is the
base itself or extends it past a separator. -/
def underDest (base p : Bytes) : Bool :=
  p == base || (base ++ [slashB]).isPrefixOf p

/-- `safePath(base, name)` from the download orchestrator: join, take
absolute base and joined paths, reject unless the joined path stays under
the base; `none` is the path-traversal error. -/
def safePath (cwd base name : Bytes) : Option Bytes :=
  let joined := joinPath base name
  let absBase := absPath cwd base
  let absJoined := absPath cwd joined
  if ¬ ((absBase ++ [slashB]).isPrefixOf absJoined) ∧ absJoined ≠ absBase then
    none
  else some joined

/-- `downloadTraversal` (path behaviour): a node with a hash is a file,
written at `destination`; a directory checks every child name with
`safePath`, collects an error on rejection (the child is not visited),
recurses into accepted children, and fails if any error was collected.
The pair is (file paths written, no error occurred).  The server is
modelled as always delivering parts and local I/O as always succeeding:
those failure modes are orthogonal to path safety, and the local-cache
hash check can only remove writes at the same paths. -/
def dlTraverse (cwd : Bytes) : Node → Bytes → List Bytes × Bool
  | .mk _ (some _), destination => ([destination], true)
  | .mk children none, destination =>
    children.attach.foldl (fun acc c =>
      match safePath cwd destination c.1.1 with
      | none => (acc.1, false)
      | some childPath =>
        let r := dlTraverse cwd c.1.2 childPath
        (acc.1 ++ r.1, acc.2 && r.2)) ([], true)
termination_by n => sizeOf n
decreasing_by
  rcases c with ⟨⟨nm, nd⟩, hm⟩
  have h := List.sizeOf_lt_of_mem hm
  simp at *
  omega

/-- Whether every child join at every visited level passes the
`safePath` check. -/
def violationFree (cwd : Bytes) : Node → Bytes → Bool
  | .mk _ (some _), _ => true
  | .mk children none, destination =>
    children.attach.all (fun c =>
      match safePath cwd destination c.1.1 with
      | none => false
      | some childPath => violationFree cwd c.1.2 childPath)
termination_by n => sizeOf n
decreasing_by
  rcases c with ⟨⟨nm, nd⟩, hm⟩
  have h := List.sizeOf_lt_of_mem hm
  simp at *
  omega

theorem nil_isPrefixOf (z : Bytes) : List.isPrefixOf [] z = true := by
  cases z <;> rfl

theorem isPrefixOf_trans (x y z : Bytes) (h1 : x.isPrefixOf y = true)
    (h2 : y.isPrefixOf z = true) : x.isPrefixOf z = true := by
  induction x generalizing y z with
  | nil => exact nil_isPrefixOf z
  | cons a xs ih =>
    cases y with
    | nil => simp [List.isPrefixOf] at h1
    | cons b ys =>
      cases z with
      | nil => simp [List.isPrefixOf] at h2
      | cons c zs =>
        simp only [List.isPrefixOf, Bool.and_eq_true, beq_iff_eq] at *
        exact ⟨h1.1.trans h2.1, ih ys zs h1.2 h2.2⟩

theorem isPrefixOf_append_right (x y e : Bytes) (h : x.isPrefixOf y = true) :
    x.isPrefixOf (y ++ e) = true := by
  induction x generalizing y with
  | nil => exact nil_isPrefixOf _
  | cons a xs ih =>
    cases y with
    | nil => simp [List.isPrefixOf] at h
    | cons b ys =>
      simp only [List.isPrefixOf, Bool.and_eq_true, beq_iff_eq,
        List.cons_append] at *
      exact ⟨h.1, ih ys h.2⟩

theorem underDest_self (a : Bytes) : underDest a a = true := by
  simp [underDest]

theorem underDest_trans (a b c : Bytes) (h1 : underDest a b = true)
    (h2 : underDest b c = true) : underDest a c = true := by
  simp only [underDest, Bool.or_eq_true, beq_iff_eq] at *
  rcases h1 with h1 | h1
  · subst h1
    exact h2
  · rcases h2 with h2 | h2
    · subst h2
      right
      exact h1
    · right
      exact isPrefixOf_trans _ _ _ (isPrefixOf_append_right _ _ [slashB] h1) h2

theorem safePath_some (cwd base name cp : Bytes)
    (h : safePath cwd base name = some cp) :
    cp = joinPath base name ∧
    underDest (absPath cwd base) (absPath cwd cp) = true := by
  unfold safePath at h
  by_cases hc : ¬ ((absPath cwd base ++ [slashB]).isPrefixOf
      (absPath cwd (joinPath base name))) ∧
      absPath cwd (joinPath base name) ≠ absPath cwd base
  · rw [if_pos hc] at h
    exact Option.noConfusion h
  · rw [if_neg hc] at h
    have hcp : cp = joinPath base name := (Option.some.injEq _ _ ▸ h).symm
    subst hcp
    refine ⟨rfl, ?_⟩
    rw [underDest, Bool.or_eq_true]
    rcases not_and_or.mp hc with h1 | h2
    · right
      exact not_not.mp h1
    · left
      exact beq_iff_eq.mpr (not_not.mp h2)

theorem safePath_isSome (cwd base name : Bytes) :
    (safePath cwd base name).isSome =
      underDest (absPath cwd base) (absPath cwd (joinPath base name)) := by
  unfold safePath
  by_cases hc : ¬ ((absPath cwd base ++ [slashB]).isPrefixOf
      (absPath cwd (joinPath base name))) ∧
      absPath cwd (joinPath base name) ≠ absPath cwd base
  · rw [if_pos hc]
    have hu : underDest (absPath cwd base)
        (absPath cwd (joinPath base name)) = false := by
      rw [underDest]
      rw [Bool.or_eq_false_iff]
      constructor
      · rw [beq_eq_false_iff_ne]
        exact hc.2
      · rw [Bool.eq_false_iff]
        exact hc.1
    rw [hu]
    rfl
  · rw [if_neg hc]
    have hu : underDest (absPath cwd base)
        (absPath cwd (joinPath base name)) = true := by
      rw [underDest, Bool.or_eq_true]
      rcases not_and_or.mp hc with h1 | h2
      · right
        exact not_not.mp h1
      · left
        exact beq_iff_eq.mpr (not_not.mp h2)
    rw [hu]
    rfl

theorem attach_foldl_val {α β : Type} (l : List α) (g : β → α → β) :
    ∀ init, l.attach.foldl (fun acc i => g acc i.1) init = l.foldl g init := by
  induction l with
  | nil => intro init; rfl
  | cons a t ih =>
    intro init
    rw [List.attach_cons, List.foldl_cons, List.foldl_cons, List.foldl_map]
    rw [show (fun (acc : β) (x : {x // x ∈ t}) =>
        (fun acc (i : {x // x ∈ a :: t}) => g acc i.1) acc
          (⟨x.1, List.mem_cons_of_mem a x.2⟩ : {x // x ∈ a :: t})) =
        (fun acc (x : {x // x ∈ t}) => g acc x.1) from rfl]
    exact ih _

/-- The per-child step of the directory fold in `downloadTraversal`. -/
def dlStep (cwd dest : Bytes) (acc : List Bytes × Bool) (c : Bytes × Node) :
    List Bytes × Bool :=
  match safePath cwd dest c.1 with
  | none => (acc.1, false)
  | some childPath =>
    let r := dlTraverse cwd c.2 childPath
    (acc.1 ++ r.1, acc.2 && r.2)

/-- The per-child check of `violationFree`. -/
def vfStep (cwd dest : Bytes) (c : Bytes × Node) : Bool :=
  match safePath cwd dest c.1 with
  | none => false
  | some childPath => violationFree cwd c.2 childPath

theorem dlTraverse_file (cwd : Bytes) (children : List (Bytes × Node))
    (hv dest : Bytes) :
    dlTraverse cwd (.mk children (some hv)) dest = ([dest], true) := by
  simp [dlTraverse]

theorem dlTraverse_dir (cwd : Bytes) (children : List (Bytes × Node))
    (dest : Bytes) :
    dlTraverse cwd (.mk children none) dest =
      children.foldl (dlStep cwd dest) ([], true) := by
  rw [show dlTraverse cwd (.mk children none) dest =
      children.attach.foldl (fun acc c =>
        match safePath cwd dest c.1.1 with
        | none => (acc.1, false)
        | some childPath =>
          let r := dlTraverse cwd c.1.2 childPath
          (acc.1 ++ r.1, acc.2 && r.2)) ([], true) from by
    simp [dlTraverse]]
  exact attach_foldl_val children (dlStep cwd dest) ([], true)

theorem violationFree_file (cwd : Bytes) (children : List (Bytes × Node))
    (hv dest : Bytes) :
    violationFree cwd (.mk children (some hv)) dest = true := by
  simp [violationFree]

theorem violationFree_dir (cwd : Bytes) (children : List (Bytes × Node))
    (dest : Bytes) :
    violationFree cwd (.mk children none) dest =
      children.all (vfStep cwd dest) := by
  rw [show violationFree cwd (.mk children none) dest =
      children.attach.all (fun c =>
        match safePath cwd dest c.1.1 with
        | none => false
        | some childPath => violationFree cwd c.1.2 childPath) from by
    simp [violationFree]]
  exact attach_all_val children (vfStep cwd dest)

theorem dl_writes_within (cwd : Bytes) :
    ∀ N node dest, sizeOf node < N →
      ∀ p ∈ (dlTraverse cwd node dest).1,
        underDest (absPath cwd dest) (absPath cwd p) = true := by
  intro N
  induction N with
  | zero => intro node dest h; omega
  | succ N ih =>
    intro node dest hsz p hp
    cases node with
    | mk children hash =>
      cases hash with
      | some hv =>
        rw [dlTraverse_file] at hp
        rcases List.mem_singleton.mp hp with rfl
        exact underDest_self _
      | none =>
        rw [dlTraverse_dir] at hp
        have hszc : ∀ x ∈ children, sizeOf x.2 < N := by
          intro x hx
          have h1 := List.sizeOf_lt_of_mem hx
          obtain ⟨xn, xt⟩ := x
          simp at *
          omega
        revert hp
        suffices hgen : ∀ (l : List (Bytes × Node)),
            (∀ x ∈ l, sizeOf x.2 < N) →
            ∀ acc : List Bytes × Bool,
              (∀ q ∈ acc.1,
                underDest (absPath cwd dest) (absPath cwd q) = true) →
              ∀ q ∈ (l.foldl (dlStep cwd dest) acc).1,
                underDest (absPath cwd dest) (absPath cwd q) = true by
          intro hp
          exact hgen children hszc ([], true) (by intro q hq; simp at hq) p hp
        intro l
        induction l with
        | nil =>
          intro _ acc hacc q hq
          exact hacc q hq
        | cons c rest ihl =>
          intro hlsz acc hacc q hq
          rw [List.foldl_cons] at hq
          refine ihl (fun x hx => hlsz x (List.mem_cons_of_mem _ hx))
            (dlStep cwd dest acc c) ?_ q hq
          intro q2 hq2
          rw [dlStep] at hq2
          rcases hsp : safePath cwd dest c.1 with _ | cp
          · rw [hsp] at hq2
            exact hacc q2 hq2
          · rw [hsp] at hq2
            simp only [List.mem_append] at hq2
            rcases hq2 with hq2 | hq2
            · exact hacc q2 hq2
            · rcases safePath_some cwd dest c.1 cp hsp with ⟨_, hunder⟩
              have hin := ih c.2 cp
                (hlsz c (List.mem_cons_self _ _)) q2 hq2
              exact underDest_trans _ _ _ hunder hin

theorem dl_ok_iff_violationFree (cwd : Bytes) :
    ∀ N node dest, sizeOf node < N →
      (dlTraverse cwd node dest).2 = violationFree cwd node dest := by
  intro N
  induction N with
  | zero => intro node dest h; omega
  | succ N ih =>
    intro node dest hsz
    cases node with
    | mk children hash =>
      cases hash with
      | some hv =>
        rw [dlTraverse_file, violationFree_file]
      | none =>
        rw [dlTraverse_dir, violationFree_dir]
        have hszc : ∀ x ∈ children, sizeOf x.2 < N := by
          intro x hx
          have h1 := List.sizeOf_lt_of_mem hx
          obtain ⟨xn, xt⟩ := x
          simp at *
          omega
        suffices hgen : ∀ (l : List (Bytes × Node)),
            (∀ x ∈ l, sizeOf x.2 < N) →
            ∀ (w : List Bytes) (b : Bool),
              (l.foldl (dlStep cwd dest) (w, b)).2 = (b && l.all (vfStep cwd dest)) by
          rw [hgen children hszc [] true]
          simp
        intro l
        induction l with
        | nil =>
          intro _ w b
          simp
        | cons c rest ihl =>
          intro hlsz w b
          rw [List.foldl_cons, List.all_cons]
          have hrest := fun x hx => hlsz x (List.mem_cons_of_mem _ hx)
          rcases hsp : safePath cwd dest c.1 with _ | cp
          · have hstep : dlStep cwd dest (w, b) c = (w, false) := by
              rw [dlStep, hsp]
            have hvf : vfStep cwd dest c = false := by
              rw [vfStep, hsp]
            rw [hstep, hvf, ihl hrest w false]
            simp
          · have hchild : (dlTraverse cwd c.2 cp).2 = violationFree cwd c.2 cp :=
              ih c.2 cp (hlsz c (List.mem_cons_self _ _))
            have hstep : dlStep cwd dest (w, b) c =
                (w ++ (dlTraverse cwd c.2 cp).1, b && violationFree cwd c.2 cp) := by
              rw [dlStep, hsp, ← hchild]
            have hvf : vfStep cwd dest c = violationFree cwd c.2 cp := by
              rw [vfStep, hsp]
            rw [hstep, hvf, ihl hrest _ (b && violationFree cwd c.2 cp)]
            rw [Bool.and_assoc]

/-- Claim C1: for every manifest and destination, every file path the
download traversal writes canonicalises to the destination itself or to a
path with the destination plus separator as a prefix (no file is created
outside the destination); the traversal succeeds exactly when every child
join at every visited level passes the check, so any violation fails the
whole traversal with the path-traversal error; and the check accepts a
child name exactly when joining it with the current destination and
canonicalising stays at or under the destination. -/
theorem c1_download_path_safety (cwd : Bytes) (node : Node) (dest : Bytes) :
    (∀ p ∈ (dlTraverse cwd node dest).1,
      underDest (absPath cwd dest) (absPath cwd p) = true) ∧
    (dlTraverse cwd node dest).2 = violationFree cwd node dest ∧
    (∀ name : Bytes, (safePath cwd dest name).isSome =
      underDest (absPath cwd dest) (absPath cwd (joinPath dest name))) :=
  ⟨dl_writes_within cwd (sizeOf node + 1) node dest (by omega),
   dl_ok_iff_violationFree cwd (sizeOf node + 1) node dest (by omega),
   fun name => safePath_isSome cwd dest name⟩

/-- Witness for Claim C1: the accepted child `a` of destination `/dest`
stays inside, and a manifest with the hostile child name `../pwned`
makes the traversal fail. -/
theorem c1_download_path_safety_witness :
    underDest (absPath [47] [47, 100, 101, 115, 116])
        (absPath [47] [47, 100, 101, 115, 116, 47, 97]) = true ∧
    (dlTraverse [47]
        (Node.mk [([46, 46, 47, 112, 119, 110, 101, 100],
          Node.mk [] (some [1]))] none)
        [47, 100, 101, 115, 116]).2 = false := by
  constructor
  · have hw : (dlTraverse [47]
        (Node.mk [([97], Node.mk [] (some [1]))] none)
        [47, 100, 101, 115, 116]).1 = [[47, 100, 101, 115, 116, 47, 97]] := by
      rw [dlTraverse_dir, List.foldl_cons, List.foldl_nil]
      simp only [dlStep]
      rw [show safePath [47] [47, 100, 101, 115, 116] [97] =
        some [47, 100, 101, 115, 116, 47, 97] from by decide]
      dsimp only
      rw [dlTraverse_file]
      rfl
    have h := (c1_download_path_safety [47]
        (Node.mk [([97], Node.mk [] (some [1]))] none)
        [47, 100, 101, 115, 116]).1
    apply h
    rw [hw]
    simp
  · have h := (c1_download_path_safety [47]
        (Node.mk [([46, 46, 47, 112, 119, 110, 101, 100],
          Node.mk [] (some [1]))] none)
        [47, 100, 101, 115, 116]).2.1
    rw [h, violationFree_dir]
    simp only [List.all_cons, List.all_nil, vfStep]
    rw [show safePath [47] [47, 100, 101, 115, 116]
        [46, 46, 47, 112, 119, 110, 101, 100] = none from by decide]
    rfl

/-! ## UploadChunks concurrency engine (spec-modelled)

Modelled from the spec: the `ParallelUploader` implementation
(`protocol.NewParallelUploader` / `UploadChunksParallel`) is not among the
provided source files — only its caller (src/upload.go lines 94-110) is.
Spec section 4.4: one worker per chunk, each blocked on a per-chunk start
signal; worker 0 is released immediately; worker i+1's start signal is
released by worker i after worker i has acquired a send-semaphore slot or
failed encoding; at most `C` slots exist; a slot is released exactly once
(a compare-and-swap released flag), whether on body EOF, HTTP failure, or
a body never read to EOF. -/

/-- Phase of one chunk worker. -/
inductive WPhase where
  | pending
  | signaled
  | encodeFailed
  | sending
  | released
deriving DecidableEq

/-- State of an `UploadChunks` run with `n` chunks: per-worker phase, the
semaphore acquisition order, and the number of releases each worker has
performed. -/
structure UCState (n : Nat) where
  phase : Fin n → WPhase
  acq : List (Fin n)
  rel : Fin n → Nat

/-- Number of workers currently in the send phase (holding a slot). -/
def sendCount {n : Nat} (s : UCState n) : Nat :=
  (Finset.univ.filter (fun i => s.phase i = WPhase.sending)).card

/-- Update one worker's phase. -/
def setPhase {n : Nat} (ph : Fin n → WPhase) (i : Fin n) (p : WPhase) :
    Fin n → WPhase :=
  fun j => if j = i then p else ph j

/-- Deliver the start signal to worker `i + 1`, when it exists. -/
def signalNext {n : Nat} (ph : Fin n → WPhase) (i : Fin n) : Fin n → WPhase :=
  fun j => if i.1 + 1 = j.1 then WPhase.signaled else ph j

/-- Initial state: worker 0 (when it exists) holds its start signal,
everyone else waits; no slot held, nothing released. -/
def initState (n : Nat) : UCState n :=
  { phase := fun i => if i.1 = 0 then WPhase.signaled else WPhase.pending,
    acq := [],
    rel := fun _ => 0 }

/-- One step of the engine under concurrency cap `C`: a signalled worker
may fail encoding (passing the start signal on without ever taking a
slot), or acquire a send slot when fewer than `C` are held (passing the
start signal on); a sending worker's slot is released exactly once, on
body EOF or on any failure path. -/
inductive UCStep (C : Nat) {n : Nat} : UCState n → UCState n → Prop where
  | encodeFail (s : UCState n) (i : Fin n) :
      s.phase i = WPhase.signaled →
      UCStep C s { phase := signalNext (setPhase s.phase i WPhase.encodeFailed) i,
                   acq := s.acq, rel := s.rel }
  | acquire (s : UCState n) (i : Fin n) :
      s.phase i = WPhase.signaled →
      sendCount s < C →
      UCStep C s { phase := signalNext (setPhase s.phase i WPhase.sending) i,
                   acq := s.acq ++ [i], rel := s.rel }
  | release (s : UCState n) (i : Fin n) :
      s.phase i = WPhase.sending →
      UCStep C s { phase := setPhase s.phase i WPhase.released,
                   acq := s.acq,
                   rel := fun j => if j = i then s.rel j + 1 else s.rel j }

/-- Reachability from the initial state. -/
inductive UCReach (C n : Nat) : UCState n → Prop where
  | init : UCReach C n (initState n)
  | step {s t : UCState n} : UCReach C n s → UCStep C s t → UCReach C n t

/-- The inductive invariant: the workers that have received their start
signal form a prefix `[0, k)` with only worker `k - 1` possibly still in
the signalled phase; at most `C` slots are held; the acquisition list
contains exactly the workers at or past the send phase, in strictly
increasing index order; and each worker's release count is 1 if its slot
has been released and 0 otherwise. -/
structure UCInv (C : Nat) {n : Nat} (s : UCState n) : Prop where
  frontier : ∃ k, k ≤ n ∧
    (∀ j : Fin n, s.phase j ≠ WPhase.pending ↔ j.1 < k) ∧
    (∀ j : Fin n, s.phase j = WPhase.signaled → j.1 + 1 = k)
  count_le : sendCount s ≤ C
  acq_iff : ∀ i : Fin n, i ∈ s.acq ↔
    (s.phase i = WPhase.sending ∨ s.phase i = WPhase.released)
  acq_sorted : s.acq.Pairwise (fun a b => a.1 < b.1)
  rel_char : ∀ i : Fin n,
    s.rel i = (if s.phase i = WPhase.released then 1 else 0)

theorem advPhase_eq {n : Nat} (ph : Fin n → WPhase) (i : Fin n) (q : WPhase)
    (j : Fin n) :
    signalNext (setPhase ph i q) i j =
      (if i.1 + 1 = j.1 then WPhase.signaled else if j = i then q else ph j) := by
  simp [signalNext, setPhase]

theorem ucInv_init (C n : Nat) : UCInv C (initState n) := by
  refine ⟨⟨min 1 n, Nat.min_le_right 1 n, ?_, ?_⟩, ?_, ?_, ?_, ?_⟩
  · intro j
    have hn : 0 < n := j.pos
    simp only [initState]
    by_cases h0 : j.1 = 0
    · rw [if_pos h0]
      constructor
      · intro _
        omega
      · intro _ hc
        exact WPhase.noConfusion hc
    · rw [if_neg h0]
      constructor
      · intro h
        exact absurd rfl h
      · intro h
        omega
  · intro j h
    have hn : 0 < n := j.pos
    simp only [initState] at h
    by_cases h0 : j.1 = 0
    · omega
    · rw [if_neg h0] at h
      exact WPhase.noConfusion h
  · have : (Finset.univ.filter
        (fun i : Fin n => (initState n).phase i = WPhase.sending)) = ∅ := by
      refine Finset.filter_eq_empty_iff.mpr ?_
      intro j _
      simp only [initState]
      by_cases h0 : j.1 = 0
      · rw [if_pos h0]
        intro hc
        exact WPhase.noConfusion hc
      · rw [if_neg h0]
        intro hc
        exact WPhase.noConfusion hc
    rw [sendCount, this]
    simp
  · intro i
    simp only [initState, List.not_mem_nil, false_iff]
    by_cases h0 : i.1 = 0
    · rw [if_pos h0]
      rintro (hc | hc) <;> exact WPhase.noConfusion hc
    · rw [if_neg h0]
      rintro (hc | hc) <;> exact WPhase.noConfusion hc
  · exact List.Pairwise.nil
  · intro i
    simp only [initState]
    by_cases h0 : i.1 = 0 <;> simp [h0]

theorem frontier_advance {n : Nat} (s : UCState n) (i : Fin n) (q : WPhase)
    (hq_np : q ≠ WPhase.pending) (hq_ns : q ≠ WPhase.signaled)
    (hsig : s.phase i = WPhase.signaled)
    (hfr : ∃ k, k ≤ n ∧
      (∀ j : Fin n, s.phase j ≠ WPhase.pending ↔ j.1 < k) ∧
      (∀ j : Fin n, s.phase j = WPhase.signaled → j.1 + 1 = k)) :
    ∃ k, k ≤ n ∧
      (∀ j : Fin n, signalNext (setPhase s.phase i q) i j ≠ WPhase.pending ↔
        j.1 < k) ∧
      (∀ j : Fin n, signalNext (setPhase s.phase i q) i j = WPhase.signaled →
        j.1 + 1 = k) := by
  obtain ⟨k, hkn, ha, hb⟩ := hfr
  have hik : i.1 + 1 = k := hb i hsig
  refine ⟨min (k + 1) n, Nat.min_le_right _ _, ?_, ?_⟩
  · intro j
    rw [advPhase_eq]
    by_cases h1 : i.1 + 1 = j.1
    · rw [if_pos h1]
      have hjn : j.1 < n := j.2
      constructor
      · intro _
        omega
      · intro _ hc
        exact WPhase.noConfusion hc
    · rw [if_neg h1]
      by_cases h2 : j = i
      · rw [if_pos h2]
        subst h2
        have hjk : j.1 < k := by omega
        constructor
        · intro _
          omega
        · intro _
          exact hq_np
      · rw [if_neg h2]
        rw [ha j]
        have hjne : j.1 ≠ k := by
          intro hc
          exact h1 (by omega)
        constructor <;> intro h3 <;> omega
  · intro j hj
    rw [advPhase_eq] at hj
    by_cases h1 : i.1 + 1 = j.1
    · have hjn : j.1 < n := j.2
      omega
    · rw [if_neg h1] at hj
      by_cases h2 : j = i
      · rw [if_pos h2] at hj
        exact absurd hj hq_ns
      · rw [if_neg h2] at hj
        have hjk := hb j hj
        exact absurd (Fin.val_injective (by omega : j.1 = i.1)) h2

theorem ucInv_step (C : Nat) {n : Nat} {s t : UCState n} (hinv : UCInv C s)
    (hstep : UCStep C s t) : UCInv C t := by
  obtain ⟨hfr, hcle, hai, has, hrc⟩ := hinv
  cases hstep with
  | encodeFail i hsig =>
    have hphase : ∀ j : Fin n,
        (signalNext (setPhase s.phase i WPhase.encodeFailed) i j =
          WPhase.sending) ↔ s.phase j = WPhase.sending := by
      intro j
      rw [advPhase_eq]
      by_cases h1 : i.1 + 1 = j.1
      · rw [if_pos h1]
        obtain ⟨k, _, ha, hb⟩ := hfr
        have hik : i.1 + 1 = k := hb i hsig
        have hjp : s.phase j = WPhase.pending := by
          by_contra hc
          have := (ha j).mp hc
          omega
        rw [hjp]
        constructor <;> intro hc <;> exact WPhase.noConfusion hc
      · rw [if_neg h1]
        by_cases h2 : j = i
        · rw [if_pos h2, h2, hsig]
          constructor <;> intro hc <;> exact WPhase.noConfusion hc
        · rw [if_neg h2]
    refine ⟨frontier_advance s i WPhase.encodeFailed (by intro hc; exact WPhase.noConfusion hc)
      (by intro hc; exact WPhase.noConfusion hc) hsig hfr, ?_, ?_, has, ?_⟩
    · have hset : Finset.univ.filter (fun j : Fin n =>
          signalNext (setPhase s.phase i WPhase.encodeFailed) i j = WPhase.sending) =
          Finset.univ.filter (fun j : Fin n => s.phase j = WPhase.sending) := by
        ext j
        simp only [Finset.mem_filter, Finset.mem_univ, true_and]
        exact hphase j
      simpa [sendCount, hset] using hcle
    · intro j
      dsimp only
      rw [hai j]
      constructor
      · rintro (h | h)
        · left
          exact (hphase j).mpr h
        · right
          rw [advPhase_eq]
          by_cases h1 : i.1 + 1 = j.1
          · obtain ⟨k, _, ha, hb⟩ := hfr
            have hik : i.1 + 1 = k := hb i hsig
            have hjp : s.phase j = WPhase.pending := by
              by_contra hc
              have := (ha j).mp hc
              omega
            rw [hjp] at h
            exact absurd h (by intro hc; exact WPhase.noConfusion hc)
          · rw [if_neg h1]
            by_cases h2 : j = i
            · rw [h2, hsig] at h
              exact absurd h (by intro hc; exact WPhase.noConfusion hc)
            · rw [if_neg h2]
              exact h
      · rintro (h | h)
        · left
          exact (hphase j).mp h
        · rw [advPhase_eq] at h
          by_cases h1 : i.1 + 1 = j.1
          · rw [if_pos h1] at h
            exact absurd h (by intro hc; exact WPhase.noConfusion hc)
          · rw [if_neg h1] at h
            by_cases h2 : j = i
            · rw [if_pos h2] at h
              exact absurd h (by intro hc; exact WPhase.noConfusion hc)
            · rw [if_neg h2] at h
              right
              exact h
    · intro j
      dsimp only
      rw [hrc j, advPhase_eq]
      by_cases h1 : i.1 + 1 = j.1
      · rw [if_pos h1]
        obtain ⟨k, _, ha, hb⟩ := hfr
        have hik : i.1 + 1 = k := hb i hsig
        have hjp : s.phase j = WPhase.pending := by
          by_contra hc
          have := (ha j).mp hc
          omega
        rw [hjp]
        rw [if_neg (by intro hc; exact WPhase.noConfusion hc),
          if_neg (by intro hc; exact WPhase.noConfusion hc)]
      · rw [if_neg h1]
        by_cases h2 : j = i
        · rw [if_pos h2, h2, hsig]
          rw [if_neg (by intro hc; exact WPhase.noConfusion hc),
            if_neg (by intro hc; exact WPhase.noConfusion hc)]
        · rw [if_neg h2]
  | acquire i hsig hlt =>
    have hphase : ∀ j : Fin n,
        (signalNext (setPhase s.phase i WPhase.sending) i j = WPhase.sending) ↔
          (j = i ∨ s.phase j = WPhase.sending) := by
      intro j
      rw [advPhase_eq]
      by_cases h1 : i.1 + 1 = j.1
      · rw [if_pos h1]
        obtain ⟨k, _, ha, hb⟩ := hfr
        have hik : i.1 + 1 = k := hb i hsig
        have hjp : s.phase j = WPhase.pending := by
          by_contra hc
          have := (ha j).mp hc
          omega
        have hji : j ≠ i := by
          intro hc
          subst hc
          omega
        rw [hjp]
        constructor
        · intro hc
          exact WPhase.noConfusion hc
        · rintro (hc | hc)
          · exact absurd hc hji
          · exact WPhase.noConfusion hc
      · rw [if_neg h1]
        by_cases h2 : j = i
        · rw [if_pos h2]
          simp [h2]
        · rw [if_neg h2]
          constructor
          · intro h
            right
            exact h
          · rintro (hc | hc)
            · exact absurd hc h2
            · exact hc
    have hinotmem : i ∉ Finset.univ.filter
        (fun j : Fin n => s.phase j = WPhase.sending) := by
      simp only [Finset.mem_filter, Finset.mem_univ, true_and, hsig]
      intro hc
      exact WPhase.noConfusion hc
    have hset : Finset.univ.filter (fun j : Fin n =>
        signalNext (setPhase s.phase i WPhase.sending) i j = WPhase.sending) =
        insert i (Finset.univ.filter (fun j : Fin n =>
          s.phase j = WPhase.sending)) := by
      ext j
      simp only [Finset.mem_filter, Finset.mem_univ, true_and,
        Finset.mem_insert]
      exact hphase j
    refine ⟨frontier_advance s i WPhase.sending
      (by intro hc; exact WPhase.noConfusion hc)
      (by intro hc; exact WPhase.noConfusion hc) hsig hfr, ?_, ?_, ?_, ?_⟩
    · show (Finset.univ.filter (fun j : Fin n =>
        signalNext (setPhase s.phase i WPhase.sending) i j = WPhase.sending)).card ≤ C
      rw [hset, Finset.card_insert_of_not_mem hinotmem]
      rw [sendCount] at hlt
      omega
    · intro j
      dsimp only
      rw [List.mem_append, List.mem_singleton, hai j]
      constructor
      · rintro ((h | h) | h)
        · left
          exact (hphase j).mpr (Or.inr h)
        · right
          rw [advPhase_eq]
          by_cases h1 : i.1 + 1 = j.1
          · obtain ⟨k, _, ha, hb⟩ := hfr
            have hik : i.1 + 1 = k := hb i hsig
            have hjp : s.phase j = WPhase.pending := by
              by_contra hc
              have := (ha j).mp hc
              omega
            rw [hjp] at h
            exact absurd h (by intro hc; exact WPhase.noConfusion hc)
          · rw [if_neg h1]
            by_cases h2 : j = i
            · rw [h2, hsig] at h
              exact absurd h (by intro hc; exact WPhase.noConfusion hc)
            · rw [if_neg h2]
              exact h
        · left
          exact (hphase j).mpr (Or.inl h)
      · rintro (h | h)
        · rcases (hphase j).mp h with h | h
          · right
            exact h
          · left
            left
            exact h
        · rw [advPhase_eq] at h
          by_cases h1 : i.1 + 1 = j.1
          · rw [if_pos h1] at h
            exact absurd h (by intro hc; exact WPhase.noConfusion hc)
          · rw [if_neg h1] at h
            by_cases h2 : j = i
            · rw [if_pos h2] at h
              exact absurd h (by intro hc; exact WPhase.noConfusion hc)
            · rw [if_neg h2] at h
              left
              right
              exact h
    · show (s.acq ++ [i]).Pairwise (fun a b => a.1 < b.1)
      rw [List.pairwise_append]
      refine ⟨has, List.pairwise_singleton _ _, ?_⟩
      intro x hxmem y hymem
      rw [List.mem_singleton] at hymem
      rw [hymem]
      obtain ⟨k, _, ha, hb⟩ := hfr
      have hik : i.1 + 1 = k := hb i hsig
      have hadv := (hai x).mp hxmem
      have hxnp : s.phase x ≠ WPhase.pending := by
        rcases hadv with h | h <;> rw [h] <;> intro hc <;> exact WPhase.noConfusion hc
      have hxk : x.1 < k := (ha x).mp hxnp
      have hxne : x ≠ i := by
        intro hc
        rw [hc, hsig] at hadv
        rcases hadv with h | h <;> exact WPhase.noConfusion h
      have hxv : x.1 ≠ i.1 := fun hc => hxne (Fin.val_injective hc)
      omega
    · intro j
      dsimp only
      rw [hrc j, advPhase_eq]
      by_cases h1 : i.1 + 1 = j.1
      · rw [if_pos h1]
        obtain ⟨k, _, ha, hb⟩ := hfr
        have hik : i.1 + 1 = k := hb i hsig
        have hjp : s.phase j = WPhase.pending := by
          by_contra hc
          have := (ha j).mp hc
          omega
        rw [hjp]
        rw [if_neg (by intro hc; exact WPhase.noConfusion hc),
          if_neg (by intro hc; exact WPhase.noConfusion hc)]
      · rw [if_neg h1]
        by_cases h2 : j = i
        · rw [if_pos h2, h2, hsig]
          rw [if_neg (by intro hc; exact WPhase.noConfusion hc),
            if_neg (by intro hc; exact WPhase.noConfusion hc)]
        · rw [if_neg h2]
  | release i hsend =>
    have hphase : ∀ j : Fin n,
        (setPhase s.phase i WPhase.released j = WPhase.sending) ↔
          (s.phase j = WPhase.sending ∧ j ≠ i) := by
      intro j
      simp only [setPhase]
      by_cases h2 : j = i
      · rw [if_pos h2]
        constructor
        · intro hc
          exact WPhase.noConfusion hc
        · rintro ⟨_, hc⟩
          exact absurd h2 hc
      · rw [if_neg h2]
        constructor
        · intro h
          exact ⟨h, h2⟩
        · rintro ⟨h, _⟩
          exact h
    refine ⟨?_, ?_, ?_, has, ?_⟩
    · obtain ⟨k, hkn, ha, hb⟩ := hfr
      refine ⟨k, hkn, ?_, ?_⟩
      · intro j
        simp only [setPhase]
        by_cases h2 : j = i
        · rw [if_pos h2]
          rw [← ha j, h2, hsend]
          constructor <;> intro <;> intro hc <;> exact WPhase.noConfusion hc
        · rw [if_neg h2]
          exact ha j
      · intro j hj
        simp only [setPhase] at hj
        by_cases h2 : j = i
        · rw [if_pos h2] at hj
          exact absurd hj (by intro hc; exact WPhase.noConfusion hc)
        · rw [if_neg h2] at hj
          exact hb j hj
    · have himem : i ∈ Finset.univ.filter
          (fun j : Fin n => s.phase j = WPhase.sending) := by
        simp [hsend]
      have hset : Finset.univ.filter (fun j : Fin n =>
          setPhase s.phase i WPhase.released j = WPhase.sending) =
          (Finset.univ.filter (fun j : Fin n =>
            s.phase j = WPhase.sending)).erase i := by
        ext j
        simp only [Finset.mem_filter, Finset.mem_univ, true_and,
          Finset.mem_erase]
        rw [hphase j]
        exact ⟨fun h => ⟨h.2, h.1⟩, fun h => ⟨h.2, h.1⟩⟩
      show (Finset.univ.filter (fun j : Fin n =>
        setPhase s.phase i WPhase.released j = WPhase.sending)).card ≤ C
      rw [hset]
      exact (Finset.card_erase_le).trans hcle
    · intro j
      dsimp only
      rw [hai j]
      simp only [setPhase]
      by_cases h2 : j = i
      · rw [if_pos h2, h2, hsend]
        constructor
        · intro _
          right
          rfl
        · intro _
          left
          rfl
      · rw [if_neg h2]
    · intro j
      dsimp only
      simp only [setPhase]
      by_cases h2 : j = i
      · subst h2
        simp [hrc j, hsend]
      · simp [h2, hrc j]

theorem ucInv_reach (C n : Nat) (s : UCState n) (h : UCReach C n s) :
    UCInv C s := by
  induction h with
  | init => exact ucInv_init C n
  | step _ hstep ih => exact ucInv_step C ih hstep

/-- Claim C8: in every reachable state of the UploadChunks engine with
cap `C`, at most `C` workers hold a send-semaphore slot; slots are
acquired in strictly increasing chunk-index order; each worker releases
at most once, a release count of 1 coincides with the released phase
(so double release is impossible even on encode failure, HTTP failure or
a body never read to EOF); released workers did acquire; holders have not
yet released; and in any terminal state every acquisition has been
matched by exactly one release. -/
theorem c8_semaphore_invariants (C n : Nat) (s : UCState n)
    (hreach : UCReach C n s) :
    sendCount s ≤ C ∧
    s.acq.Pairwise (fun a b => a.1 < b.1) ∧
    (∀ i, s.rel i ≤ 1) ∧
    (∀ i, s.rel i = 1 ↔ s.phase i = WPhase.released) ∧
    (∀ i, s.phase i = WPhase.released → i ∈ s.acq) ∧
    (∀ i ∈ s.acq, s.phase i = WPhase.sending → s.rel i = 0) ∧
    ((∀ t, ¬ UCStep C s t) → ∀ i ∈ s.acq, s.rel i = 1) := by
  obtain ⟨hfr, hcle, hai, has, hrc⟩ := ucInv_reach C n s hreach
  refine ⟨hcle, has, ?_, ?_, ?_, ?_, ?_⟩
  · intro i
    rw [hrc i]
    split <;> omega
  · intro i
    by_cases h : s.phase i = WPhase.released
    · simp [hrc i, h]
    · simp [hrc i, h]
  · intro i h
    rw [hai i]
    right
    exact h
  · intro i _ hsend
    rw [hrc i, if_neg]
    rw [hsend]
    intro hc
    exact WPhase.noConfusion hc
  · intro hterm i hmem
    rcases (hai i).mp hmem with h | h
    · exact absurd (UCStep.release s i h) (hterm _)
    · rw [hrc i, if_pos h]

/-- Witness for Claim C8 at the initial state of a 2-chunk run with
cap 1. -/
theorem c8_semaphore_invariants_witness :
    sendCount (initState 2) ≤ 1 ∧
    ((initState 2).acq.Pairwise fun a b => a.1 < b.1) ∧
    (initState 2).rel 0 ≤ 1 ∧
    ((initState 2).rel 0 = 1 ↔ (initState 2).phase 0 = WPhase.released) :=
  have h := c8_semaphore_invariants 1 2 (initState 2) UCReach.init
  ⟨h.1, h.2.1, h.2.2.1 0, h.2.2.2.1 0⟩

end Xmit
